import Mathlib

/-!
# StockRoom — verification of the core against its specification

This file gives a shallow embedding, in Lean 4, of the core logic of the
StockRoom video-catalog application (file discovery, frame-rate parsing,
ingestion pipeline, facet filtering, sidebar vocabularies, tag editing and
file export), translated from the JavaScript sources
(`ffmpeg-utils.cjs`, `file-utils.cjs`, `ipc-handlers.cjs`, `app.js`),
together with theorems settling the specification's claims about it.

Modelling conventions:
* JavaScript strings are Lean `String`s; the JS primitives used by the code
  (`split`, `trim`, `toLowerCase`, `parseFloat`, `toFixed`,
  `path.basename`, `path.extname`) are re-implemented below over `List Char`
  so that every definition is executable and kernel-reducible.
* JS numbers are modelled as exact rationals, represented as a mantissa and
  a power of ten `(m, p)` standing for `m · 10^p`; IEEE-754 rounding is not
  modelled (the claims under verification never hinge on a float tie).
* The filesystem is modelled as a finite tree (`FsNode`); `fs.existsSync` /
  `fs.statSync` / `fs.readdirSync` become tree lookups.  Symbolic links are
  outside the model.
* The SQLite store keyed by `path` is modelled as an insertion-ordered
  `List Video`; external ffprobe/ffmpeg invocations are modelled by an
  oracle `probe : String → Option Meta` (`none` = the extraction promise
  rejected), which is deterministic — the one idealisation relative to a
  real, time-varying filesystem.
-/

namespace StockRoom

/-! ## Character and string utilities (JS primitive models) -/

/-- The whitespace characters recognised by the model of `String.prototype.trim`. -/
def isWS (c : Char) : Bool :=
  c = ' ' || c = '\t' || c = '\n' || c = '\r' || c = '\x0b' || c = '\x0c'

/-- Model of JS `toLowerCase` on one character (ASCII range, which is all the
code ever feeds it: codec names and user tags). -/
def lowCh (c : Char) : Char :=
  match c with
  | 'A' => 'a' | 'B' => 'b' | 'C' => 'c' | 'D' => 'd' | 'E' => 'e'
  | 'F' => 'f' | 'G' => 'g' | 'H' => 'h' | 'I' => 'i' | 'J' => 'j'
  | 'K' => 'k' | 'L' => 'l' | 'M' => 'm' | 'N' => 'n' | 'O' => 'o'
  | 'P' => 'p' | 'Q' => 'q' | 'R' => 'r' | 'S' => 's' | 'T' => 't'
  | 'U' => 'u' | 'V' => 'v' | 'W' => 'w' | 'X' => 'x' | 'Y' => 'y'
  | 'Z' => 'z' | c => c

/-- Model of JS `s.toLowerCase()`. -/
def toLowerStr (s : String) : String := String.mk (s.data.map lowCh)

/-- Split a character list at every occurrence of `sep`, keeping empty
segments — the semantics of JS `s.split(sep)` for a one-character separator
(`"".split(sep) = [""]`, `"a/".split('/') = ["a", ""]`). -/
def splitOnCh (sep : Char) : List Char → List (List Char)
  | [] => [[]]
  | c :: rest =>
    match splitOnCh sep rest with
    | [] => [[c]]
    | g :: gs => if c = sep then [] :: g :: gs else (c :: g) :: gs

/-- Model of JS `s.split(sep)` for a one-character separator. -/
def jsSplit (sep : Char) (s : String) : List String :=
  (splitOnCh sep s.data).map String.mk

/-- Concatenation with a one-character separator (the model of
`Array.prototype.join(sep)`). -/
def joinCh (sep : Char) : List (List Char) → List Char
  | [] => []
  | [g] => g
  | g :: g2 :: gs => g ++ sep :: joinCh sep (g2 :: gs)

/-- Model of JS `arr.join(",")`. -/
def jsJoinComma (l : List String) : String :=
  String.mk (joinCh ',' (l.map String.data))

/-- Drop trailing whitespace. -/
def dropTrailWS (l : List Char) : List Char :=
  (l.reverse.dropWhile isWS).reverse

/-- Model of JS `s.trim()` on a character list. -/
def trimC (l : List Char) : List Char := dropTrailWS (l.dropWhile isWS)

/-- Model of JS `s.trim()`. -/
def jsTrim (s : String) : String := String.mk (trimC s.data)

/-- Model of `path.basename`: the part after the last `/` (the model assumes
paths without a trailing slash, which is how the code builds them). -/
def basename (p : String) : String :=
  String.mk ((splitOnCh '/' p.data).getLastD [])

/-- Model of `path.join(dir, name)` for a plain entry name. -/
def pjoin (dir name : String) : String := dir ++ "/" ++ name

/-- The suffix of a character list starting at its last `.`, if any. -/
def lastDotSuffix : List Char → Option (List Char)
  | [] => none
  | c :: rest =>
    match lastDotSuffix rest with
    | some s => some s
    | none => if c = '.' then some (c :: rest) else none

/-- Model of `path.extname`: the suffix of the basename from its last dot,
empty when there is no dot or the only dot leads the name (`.bashrc`). -/
def extname (p : String) : String :=
  match (basename p).data with
  | [] => ""
  | _ :: rest =>
    match lastDotSuffix rest with
    | some s => String.mk s
    | none => ""

/-! ## Decimal numerals -/

/-- The decimal digit character for `n < 10`. -/
def digCh (n : Nat) : Char :=
  match n with
  | 0 => '0' | 1 => '1' | 2 => '2' | 3 => '3' | 4 => '4'
  | 5 => '5' | 6 => '6' | 7 => '7' | 8 => '8' | _ => '9'

/-- Decimal digits of `n`, most significant first; `fuel` bounds the
recursion depth (any `fuel ≥ n` is exact, see `natDigits`). -/
def natDigitsAux : Nat → Nat → List Char
  | 0, n => [digCh n]
  | fuel + 1, n =>
    if n < 10 then [digCh n] else natDigitsAux fuel (n / 10) ++ [digCh (n % 10)]

/-- Decimal digits of `n`, most significant first. -/
def natDigits (n : Nat) : List Char := natDigitsAux n n

/-- Decimal numeral of a natural number (the model of JS number-to-string
for a non-negative integer). -/
def natStr (n : Nat) : String := String.mk (natDigits n)

/-- Numeric value of a digit character. -/
def digVal (c : Char) : Nat := c.toNat - 48

/-- Value of a run of decimal digit characters. -/
def decimalVal (l : List Char) : Nat := l.foldl (fun a c => 10 * a + digVal c) 0

/-! ## JS `parseFloat` and `toFixed(2)` models

A parsed JS number is represented exactly as a pair `(m, p) : Int × Int`
standing for `m · 10^p`.  `parseFloat` prefix-parses: it skips leading
whitespace, consumes an optional sign, an integer part, an optional
fractional part and an optional exponent, ignores any trailing garbage, and
yields `NaN` (here `none`) only when no mantissa digit was consumed.
(`Infinity` literals are outside the model; the program only ever feeds
frame-rate strings.) -/

/-- A decimal value `m · 10^p`. -/
abbrev Dec10 := Int × Int

/-- Parse an optional sign, returning the factor and the rest. -/
def parseSign : List Char → Int × List Char
  | '-' :: rest => (-1, rest)
  | '+' :: rest => (1, rest)
  | cs => (1, cs)

/-- Model of JS `parseFloat`. -/
def parseFloatD (s : String) : Option Dec10 :=
  let cs := s.data.dropWhile isWS
  let (sgn, cs1) := parseSign cs
  let ip := cs1.takeWhile Char.isDigit
  let cs2 := cs1.dropWhile Char.isDigit
  let (fp, cs3) :=
    match cs2 with
    | '.' :: rest => (rest.takeWhile Char.isDigit, rest.dropWhile Char.isDigit)
    | _ => ([], cs2)
  if ip.isEmpty && fp.isEmpty then none
  else
    let mant : Int := sgn * Int.ofNat (decimalVal (ip ++ fp))
    let p0 : Int := -(fp.length : Int)
    match cs3 with
    | 'e' :: rest => parseExp mant p0 rest
    | 'E' :: rest => parseExp mant p0 rest
    | _ => some (mant, p0)
where
  /-- Parse the exponent part; an empty digit run after `e` is trailing
  garbage, leaving the mantissa value as parsed. -/
  parseExp (mant p0 : Int) (rest : List Char) : Option Dec10 :=
    let (esgn, rest1) := parseSign rest
    let ed := rest1.takeWhile Char.isDigit
    if ed.isEmpty then some (mant, p0)
    else some (mant, p0 + esgn * Int.ofNat (decimalVal ed))

/-- Pad a value `< 100` to two digits. -/
def pad2 (n : Nat) : String :=
  if n < 10 then String.mk ('0' :: natDigits n) else natStr n

/-- `toFixed(2)` of the exact rational `a / b` (`b ≠ 0`): JS rounds to the
nearest multiple of `1/100`, ties toward the larger value, i.e. to
`⌊100·(a/b) + 1/2⌋` hundredths. -/
def toFixed2Frac (a b : Int) : String :=
  let a' := if b < 0 then -a else a
  let b' := if b < 0 then -b else b
  let k : Int := Int.fdiv (200 * a' + b') (2 * b')
  (if k < 0 then "-" else "") ++ natStr (k.natAbs / 100) ++ "." ++ pad2 (k.natAbs % 100)

/-- `toFixed(2)` of the quotient of two parsed values. -/
def toFixed2Ratio (nu de : Dec10) : String :=
  let e := nu.2 - de.2
  if e ≥ 0 then toFixed2Frac (nu.1 * 10 ^ e.toNat) de.1
  else toFixed2Frac nu.1 (de.1 * 10 ^ (-e).toNat)

/-- `toFixed(2)` of a single parsed value `m · 10^p`. -/
def toFixed2D (d : Dec10) : String :=
  if d.2 ≥ 0 then toFixed2Frac (d.1 * 10 ^ d.2.toNat) 1
  else toFixed2Frac d.1 (10 ^ (-d.2).toNat)

/-! ## `parseFrameRate` (ffmpeg-utils.cjs, lines 26–40) -/

/-- Embedding of `parseFrameRate`: reject the empty string up front
(`!rFrameRate`), try the `N/D` ratio branch when splitting on `/` gives
exactly two parts, both parse and the denominator value is non-zero,
otherwise fall back to `parseFloat` on the whole string, with `"0.00"` for
`NaN`. -/
def parseFrameRate (r : String) : String :=
  if r = "" then "0.00"
  else
    let parts := jsSplit '/' r
    let viaRat : Option String :=
      if parts.length = 2 then
        match parseFloatD (parts.getD 0 ""), parseFloatD (parts.getD 1 "") with
        | some nu, some de => if de.1 ≠ 0 then some (toFixed2Ratio nu de) else none
        | _, _ => none
      else none
    match viaRat with
    | some s => s
    | none =>
      match parseFloatD r with
      | some q => toFixed2D q
      | none => "0.00"

/-- The frame-rate parser as the amended claim describes it: if the string
has ratio form `N/D` (splitting on `/` gives exactly two parts) with both
parts parsing and the value of `D` non-zero, format `N/D` to two decimals;
otherwise fall back to the (prefix) bare parse of the whole string, and
return `"0.00"` only when that also fails — there is no early return for
a zero denominator. -/
def amendedFrameRate (r : String) : String :=
  let parts := jsSplit '/' r
  let ratVal : Option String :=
    if parts.length = 2 then
      match parseFloatD (parts.getD 0 ""), parseFloatD (parts.getD 1 "") with
      | some nu, some de => if de.1 ≠ 0 then some (toFixed2Ratio nu de) else none
      | _, _ => none
    else none
  match ratVal with
  | some s => s
  | none =>
    match parseFloatD r with
    | some q => toFixed2D q
    | none => "0.00"

/-! ## Resolution classification (app.js, lines 51–56) -/

/-- Embedding of `VideoManager.getResolutionCategory`. -/
def getResolutionCategory (height : Nat) : String :=
  if height ≥ 2160 then "4k"
  else if height ≥ 1080 then "1080p"
  else if height ≥ 720 then "720p"
  else "sd"

/-! ## Theorems for C1 and C5 -/

/-- C1 counterexample: the claim says a ratio with a zero denominator (such
as `"25/0"` or `"30/0"`) yields `"0.00"`, but `parseFrameRate` then falls
back to `parseFloat` on the whole string, which prefix-parses the numerator,
so `"25/0"` yields `"25.00"`. -/
theorem parseFrameRate_zero_denominator_counterexample :
    parseFrameRate "25/0" = "25.00" ∧ parseFrameRate "25/0" ≠ "0.00" ∧
      parseFrameRate "30/0" = "30.00" := by
  refine ⟨by decide, by decide, by decide⟩

/-- C1 (amended): frame-rate parsing returns the ratio `N/D` formatted to
two decimal places when the string splits on `/` into exactly two parts that
both parse as numbers with a non-zero denominator value; otherwise it
returns the bare (prefix) parse of the whole string formatted to two decimal
places, and `"0.00"` only when that parse also fails.  In particular
`"30000/1001"` yields `"29.97"`, `"30"` yields `"30.00"`, `"25/0"` yields
`"25.00"`, `"30/0"` yields `"30.00"`, and `""` and `"abc"` yield `"0.00"`. -/
theorem parseFrameRate_amended_spec :
    (∀ r : String, parseFrameRate r = amendedFrameRate r) ∧
      parseFrameRate "30000/1001" = "29.97" ∧
      parseFrameRate "30" = "30.00" ∧
      parseFrameRate "25/0" = "25.00" ∧
      parseFrameRate "30/0" = "30.00" ∧
      parseFrameRate "" = "0.00" ∧
      parseFrameRate "abc" = "0.00" := by
  refine ⟨?_, by decide, by decide, by decide, by decide, by decide, by decide⟩
  intro r
  by_cases h : r = ""
  · subst h; decide
  · simp only [parseFrameRate, amendedFrameRate, if_neg h]

/-- C5: the derived resolution class is `"4k"` for height ≥ 2160, `"1080p"`
for 1080 ≤ height < 2160, `"720p"` for 720 ≤ height < 1080 and `"sd"`
otherwise, with the boundary examples 2160 → 4k, 2159 → 1080p, 1080 → 1080p,
1079 → 720p, 100 → sd. -/
theorem getResolutionCategory_spec :
    (∀ h : Nat,
        (2160 ≤ h → getResolutionCategory h = "4k") ∧
        (1080 ≤ h → h < 2160 → getResolutionCategory h = "1080p") ∧
        (720 ≤ h → h < 1080 → getResolutionCategory h = "720p") ∧
        (h < 720 → getResolutionCategory h = "sd")) ∧
      getResolutionCategory 2160 = "4k" ∧
      getResolutionCategory 2159 = "1080p" ∧
      getResolutionCategory 1080 = "1080p" ∧
      getResolutionCategory 1079 = "720p" ∧
      getResolutionCategory 100 = "sd" := by
  refine ⟨?_, by decide, by decide, by decide, by decide, by decide⟩
  intro h
  unfold getResolutionCategory
  refine ⟨fun h1 => ?_, fun h1 h2 => ?_, fun h1 h2 => ?_, fun h1 => ?_⟩
  · rw [if_pos (by omega)]
  · rw [if_neg (by omega), if_pos (by omega)]
  · rw [if_neg (by omega), if_neg (by omega), if_pos (by omega)]
  · rw [if_neg (by omega), if_neg (by omega), if_neg (by omega)]

/-- C5 witness: the classification theorem applied at height 3000 with its
bound discharged concretely. -/
theorem getResolutionCategory_spec_witness :
    getResolutionCategory 3000 = "4k" :=
  (getResolutionCategory_spec.1 3000).1 (by norm_num)

/-! ## File discovery (file-utils.cjs, lines 6–28)

The filesystem is a finite tree: a regular file or a directory with a list
of named children (in `readdirSync` order).  An input path is paired with
its resolution — `none` models a path for which `fs.existsSync` is false. -/

/-- A filesystem node. -/
inductive FsNode where
  | file : FsNode
  | dir : List (String × FsNode) → FsNode

/-- Embedding of `VIDEO_EXTS`. -/
def VIDEO_EXTS : List String := [".mp4", ".mov", ".m4v", ".avi", ".mkv", ".webm"]

/-- A path is collected iff its extension, lower-cased, is in `VIDEO_EXTS`. -/
def hasVideoExt (p : String) : Bool := VIDEO_EXTS.contains (toLowerStr (extname p))

/-- Embedding of the recursive body of `getFilesRecursively` on one resolved
path: a regular file is kept when its extension matches; a directory is
expanded recursively in entry order, depth-unbounded. -/
def filesOfNode : String → FsNode → List String
  | p, .file => if hasVideoExt p then [p] else []
  | p, .dir entries => go p entries
where
  /-- Walk the directory entries in order. -/
  go : String → List (String × FsNode) → List String
  | _, [] => []
  | p, (name, child) :: rest => filesOfNode (pjoin p name) child ++ go p rest

/-- Embedding of `getFilesRecursively` on a list of input paths, each paired
with its resolution (`none` = nonexistent, silently skipped). -/
def getFilesRecursively (roots : List (String × Option FsNode)) : List String :=
  roots.flatMap fun pr =>
    match pr.2 with
    | none => []
    | some n => filesOfNode pr.1 n

/-- The claim's reference walk: every regular file reachable from a resolved
path, with no extension filtering. -/
def reachFiles : String → FsNode → List String
  | p, .file => [p]
  | p, .dir entries => go p entries
where
  /-- Walk the directory entries in order. -/
  go : String → List (String × FsNode) → List String
  | _, [] => []
  | p, (name, child) :: rest => reachFiles (pjoin p name) child ++ go p rest

/-- All regular files reachable from the listed paths. -/
def reachAll (roots : List (String × Option FsNode)) : List String :=
  roots.flatMap fun pr =>
    match pr.2 with
    | none => []
    | some n => reachFiles pr.1 n

mutual

/-- Discovery on one node is exactly the reachable files passed through the
extension filter. -/
theorem filesOfNode_eq_filter : ∀ (p : String) (n : FsNode),
    filesOfNode p n = (reachFiles p n).filter hasVideoExt
  | p, .file => by
    cases h : hasVideoExt p <;> simp [filesOfNode, reachFiles, h]
  | p, .dir entries => by
    simp only [filesOfNode, reachFiles, filesOfNode_go_eq_filter p entries]

/-- Directory-entry walk version of `filesOfNode_eq_filter`. -/
theorem filesOfNode_go_eq_filter : ∀ (p : String) (entries : List (String × FsNode)),
    filesOfNode.go p entries = (reachFiles.go p entries).filter hasVideoExt
  | p, [] => by simp [filesOfNode.go, reachFiles.go]
  | p, (name, child) :: rest => by
    simp only [filesOfNode.go, reachFiles.go, List.filter_append,
      filesOfNode_eq_filter (pjoin p name) child, filesOfNode_go_eq_filter p rest]

end

/-- C6: file discovery returns exactly the regular files reachable from the
listed paths (directories expanded recursively, depth-unbounded) whose
extension, compared case-insensitively, is in the fixed recognized set;
a nonexistent input path contributes nothing (it is skipped, not an error),
and a file with any other extension is never included. -/
theorem getFilesRecursively_spec :
    (∀ roots, getFilesRecursively roots = (reachAll roots).filter hasVideoExt) ∧
      (∀ p : String, getFilesRecursively [(p, none)] = []) ∧
      (∀ roots x, x ∈ getFilesRecursively roots → hasVideoExt x = true) := by
  have main : ∀ roots, getFilesRecursively roots = (reachAll roots).filter hasVideoExt := by
    intro roots
    induction roots with
    | nil => rfl
    | cons hd tl ih =>
      obtain ⟨p, r⟩ := hd
      simp only [getFilesRecursively, reachAll, List.flatMap_cons, List.filter_append] at ih ⊢
      cases r with
      | none => simpa using ih
      | some n => dsimp only; rw [filesOfNode_eq_filter, ih]
  refine ⟨main, fun p => rfl, fun roots x hx => ?_⟩
  rw [main roots] at hx
  exact (List.mem_filter.mp hx).2

/-- C6 witness: the discovery theorem applied to a concrete directory tree
containing `a.mp4`, `b.txt`, `c.MKV` and `d.mov`; membership of the
discovered `c.MKV` path discharges the hypothesis, showing the
case-insensitive extension test. -/
theorem getFilesRecursively_spec_witness : hasVideoExt "/r/c.MKV" = true :=
  getFilesRecursively_spec.2.2
    [("/r", some (.dir [("a.mp4", .file), ("b.txt", .file), ("c.MKV", .file), ("d.mov", .file)]))]
    "/r/c.MKV" (by decide)

/-! ## The catalog record and the facet filter engine (app.js, lines 9–62) -/

/-- One row of the `videos` table / one in-memory record. -/
structure Video where
  path : String
  name : String
  thumbnail : String
  preview : String
  codec : String
  width : Nat
  height : Nat
  fps : String
  tags : String
deriving DecidableEq

/-- The tri-mode filter specification held by `VideoManager.filters`. -/
structure Filters where
  and : List String
  or : List String
  not : List String
deriving DecidableEq

/-- The record's term set, as built inside `matchFilters`: the
trimmed-lowercased comma-split tags (empty tags string contributing
nothing, since `""` is falsy), then the lowercased codec, then the derived
resolution class. -/
def searchTerms (v : Video) : List String :=
  (if v.tags ≠ "" then (jsSplit ',' v.tags).map (fun t => toLowerStr (jsTrim t)) else [])
    ++ [toLowerStr v.codec, getResolutionCategory v.height]

/-- Embedding of `VideoManager.matchFilters` (the `showUntaggedOnly` flag
and the filter spec are passed explicitly in place of `this`). -/
def matchFilters (u : Bool) (fl : Filters) (v : Video) : Bool :=
  if u && (v.tags != "") && (jsTrim v.tags != "") then false
  else
    let terms := searchTerms v
    if (!fl.and.isEmpty) && !(fl.and.all fun t => terms.contains t) then false
    else if (!fl.or.isEmpty) && !(fl.or.any fun t => terms.contains t) then false
    else if (!fl.not.isEmpty) && (fl.not.any fun t => terms.contains t) then false
    else true

/-- Embedding of `VideoManager.getFilteredVideos`. -/
def getFilteredVideos (u : Bool) (fl : Filters) (videos : List Video) : List Video :=
  videos.filter (matchFilters u fl)

/-- C4: a record passes the facet filter iff it passes the untagged-only
pre-filter (trimmed tags empty when the flag is set) and every non-empty
clause: all of the AND terms in the record's term set, at least one OR term
in it, and no NOT term in it; an empty clause is vacuous, and an empty
input record set yields empty output. -/
theorem matchFilters_spec :
    (∀ (u : Bool) (fl : Filters) (v : Video),
        matchFilters u fl v = true ↔
          ((u = true → jsTrim v.tags = "") ∧
           (fl.and ≠ [] → ∀ t ∈ fl.and, t ∈ searchTerms v) ∧
           (fl.or ≠ [] → ∃ t ∈ fl.or, t ∈ searchTerms v) ∧
           (fl.not ≠ [] → ∀ t ∈ fl.not, t ∉ searchTerms v))) ∧
      (∀ u fl, getFilteredVideos u fl [] = []) := by
  refine ⟨fun u fl v => ?_, fun u fl => rfl⟩
  simp only [matchFilters, Bool.and_eq_true, Bool.not_eq_true', bne_iff_ne, ne_eq,
    List.isEmpty_eq_false, List.isEmpty_iff, List.all_eq_true, List.any_eq_true,
    List.elem_iff, decide_eq_true_eq, Bool.not_eq_true, Bool.not_eq_false]
  split_ifs with h1 h2 h3 h4 <;> simp_all <;>
    first
    | tauto
    | (intro hu
       rcases em (v.tags = "") with ht | ht
       · rw [ht]; rfl
       · exact h1 hu ht)

/-- C4 witness: the filter theorem applied to the spec's example records —
`and = [a]` accepts the record tagged `"a,b"` with codec `h264` at height
1080 — with all clause hypotheses discharged concretely. -/
theorem matchFilters_spec_witness :
    matchFilters false ⟨["a"], [], []⟩
      ⟨"/v/1.mp4", "1.mp4", "", "", "h264", 1920, 1080, "30.00", "a,b"⟩ = true :=
  (matchFilters_spec.1 false ⟨["a"], [], []⟩
      ⟨"/v/1.mp4", "1.mp4", "", "", "h264", 1920, 1080, "30.00", "a,b"⟩).mpr
    (by
      refine ⟨?_, ?_, ?_, ?_⟩
      · intro h; exact Bool.noConfusion h
      · intro _; decide
      · intro h; exact absurd rfl h
      · intro h; exact absurd rfl h)

/-! ## Split / join / trim lemmas -/

theorem splitOnCh_ne_nil (sep : Char) (l : List Char) : splitOnCh sep l ≠ [] := by
  induction l with
  | nil => simp [splitOnCh]
  | cons c rest ih =>
    simp only [splitOnCh]
    rcases h : splitOnCh sep rest with _ | ⟨g, gs⟩
    · simp
    · by_cases hc : c = sep <;> simp [hc]

theorem mem_splitOnCh_not_sep (sep : Char) :
    ∀ (l : List Char), ∀ g ∈ splitOnCh sep l, sep ∉ g := by
  intro l
  induction l with
  | nil =>
    intro g hg
    simp only [splitOnCh, List.mem_singleton] at hg
    simp [hg]
  | cons c rest ih =>
    intro g hg
    simp only [splitOnCh] at hg
    rcases h : splitOnCh sep rest with _ | ⟨g0, gs⟩
    · exact absurd h (splitOnCh_ne_nil sep rest)
    · rw [h] at hg
      dsimp only at hg
      by_cases hc : c = sep
      · rw [if_pos hc, List.mem_cons] at hg
        rcases hg with hg | hg
        · simp [hg]
        · exact ih g (h ▸ hg)
      · rw [if_neg hc, List.mem_cons] at hg
        rcases hg with hg | hg
        · subst hg
          intro hmem
          rcases List.mem_cons.mp hmem with hh | hh
          · exact hc hh.symm
          · exact ih g0 (h ▸ List.mem_cons_self g0 gs) hh
        · exact ih g (h ▸ List.mem_cons_of_mem g0 hg)

theorem splitOnCh_of_not_mem {sep : Char} {l : List Char} (h : sep ∉ l) :
    splitOnCh sep l = [l] := by
  induction l with
  | nil => rfl
  | cons c rest ih =>
    have hc : ¬c = sep := fun he => h (he ▸ List.mem_cons_self c rest)
    have hr : sep ∉ rest := fun hm => h (List.mem_cons_of_mem c hm)
    simp only [splitOnCh, ih hr]
    simp [hc]

theorem splitOnCh_append_sep {sep : Char} {l : List Char} (h : sep ∉ l) (t : List Char) :
    splitOnCh sep (l ++ sep :: t) = l :: splitOnCh sep t := by
  induction l with
  | nil =>
    simp only [List.nil_append, splitOnCh]
    rcases ht : splitOnCh sep t with _ | ⟨g, gs⟩
    · exact absurd ht (splitOnCh_ne_nil sep t)
    · simp
  | cons c rest ih =>
    have hc : ¬c = sep := fun he => h (he ▸ List.mem_cons_self c rest)
    have hr : sep ∉ rest := fun hm => h (List.mem_cons_of_mem c hm)
    have hinner := ih hr
    rw [List.cons_append]
    simp only [splitOnCh]
    rw [hinner]
    simp [hc]

theorem splitOnCh_joinCh {sep : Char} :
    ∀ {ls : List (List Char)}, ls ≠ [] → (∀ g ∈ ls, sep ∉ g) →
      splitOnCh sep (joinCh sep ls) = ls := by
  intro ls
  induction ls with
  | nil => intro h; exact absurd rfl h
  | cons g gs ih =>
    intro _ hmem
    cases gs with
    | nil =>
      simpa [joinCh] using splitOnCh_of_not_mem (hmem g (List.mem_cons_self g []))
    | cons g2 gs2 =>
      have hg : sep ∉ g := hmem g (List.mem_cons_self g (g2 :: gs2))
      have hrest : ∀ x ∈ g2 :: gs2, sep ∉ x := fun x hx => hmem x (List.mem_cons_of_mem g hx)
      simp only [joinCh, splitOnCh_append_sep hg, ih (by simp) hrest]

theorem dropWhileWS_idem (l : List Char) :
    (l.dropWhile isWS).dropWhile isWS = l.dropWhile isWS := by
  induction l with
  | nil => rfl
  | cons c l ih =>
    by_cases h : isWS c <;> simp [List.dropWhile_cons, h, ih]

theorem dropTrailWS_cons (c : Char) (l : List Char) :
    dropTrailWS (c :: l) =
      if dropTrailWS l = [] then (if isWS c then [] else [c]) else c :: dropTrailWS l := by
  simp only [dropTrailWS, List.reverse_cons, List.dropWhile_append]
  by_cases h : (List.dropWhile isWS l.reverse).isEmpty = true
  · rw [if_pos h]
    have h2 : (List.dropWhile isWS l.reverse).reverse = [] := by
      simp [List.isEmpty_iff.mp h]
    rw [if_pos h2]
    by_cases hc : isWS c <;> simp [List.dropWhile_cons, hc]
  · rw [if_neg h]
    have h2 : (List.dropWhile isWS l.reverse).reverse ≠ [] := by
      simp only [List.isEmpty_iff] at h
      simpa using h
    rw [if_neg h2]
    simp

theorem dropTrailWS_idem (l : List Char) : dropTrailWS (dropTrailWS l) = dropTrailWS l := by
  simp [dropTrailWS, dropWhileWS_idem]

theorem dropWhile_dropTrailWS_comm (l : List Char) :
    (dropTrailWS l).dropWhile isWS = dropTrailWS (l.dropWhile isWS) := by
  induction l with
  | nil => rfl
  | cons c l ih =>
    rw [dropTrailWS_cons]
    by_cases hA : dropTrailWS l = []
    · rw [if_pos hA]
      by_cases hc : isWS c
      · have step : List.dropWhile isWS (c :: l) = List.dropWhile isWS l := by
          simp [List.dropWhile_cons, hc]
        rw [step, ← ih, hA]
        simp [List.dropWhile_cons, hc]
      · have step : List.dropWhile isWS (c :: l) = c :: l := by
          simp [List.dropWhile_cons, hc]
        rw [step, dropTrailWS_cons, if_pos hA]
        simp [List.dropWhile_cons, hc]
    · rw [if_neg hA]
      by_cases hc : isWS c
      · have step : List.dropWhile isWS (c :: l) = List.dropWhile isWS l := by
          simp [List.dropWhile_cons, hc]
        rw [step, ← ih]
        simp [List.dropWhile_cons, hc]
      · have step : List.dropWhile isWS (c :: l) = c :: l := by
          simp [List.dropWhile_cons, hc]
        rw [step, dropTrailWS_cons, if_neg hA]
        simp [List.dropWhile_cons, hc]

theorem trimC_idem (l : List Char) : trimC (trimC l) = trimC l := by
  unfold trimC
  rw [dropWhile_dropTrailWS_comm, dropWhileWS_idem, dropTrailWS_idem]

theorem jsTrim_idem (s : String) : jsTrim (jsTrim s) = jsTrim s := by
  simp [jsTrim, trimC_idem]

theorem trimC_subset (l : List Char) : ∀ a ∈ trimC l, a ∈ l := by
  intro a ha
  simp only [trimC, dropTrailWS, List.mem_reverse] at ha
  exact (List.dropWhile_sublist isWS).subset
    ((List.mem_reverse).mp ((List.dropWhile_sublist isWS).subset ha))

/-! ## Tag editing (app.js, lines 329–365) -/

/-- The trimmed tag array built by `addTagToVideo`
(`video.tags ? video.tags.split(',').map(t => t.trim()) : []`). -/
def tagArray (tags : String) : List String :=
  if tags ≠ "" then (jsSplit ',' tags).map jsTrim else []

/-- Embedding of the `tags`-field computation of `addTagToVideo`: `none`
models the early return (warning notification, no store update, no record
mutation) when the tag is already in the array; `some s` is the new tags
string that is written to the store and assigned to the record. -/
def addTag (tags tag : String) : Option String :=
  let arr := tagArray tags
  if arr.contains tag then none
  else some (jsJoinComma (arr ++ [tag]))

/-- Embedding of the `tags`-field computation of `removeTagFromVideo`. -/
def removeTag (tags tag : String) : String :=
  jsJoinComma (((jsSplit ',' tags).map jsTrim).filter (fun t => t != tag))

/-- Trim-normalisation of a tags string: each comma-separated element
trimmed, then re-joined (the claim's "up to trim normalization of its
elements"). -/
def normalizeTags (tags : String) : String :=
  jsJoinComma ((jsSplit ',' tags).map jsTrim)

theorem mem_jsSplit_no_comma (tags : String) : ∀ y ∈ jsSplit ',' tags, ',' ∉ y.data := by
  intro y hy
  simp only [jsSplit, List.mem_map] at hy
  obtain ⟨g, hg, rfl⟩ := hy
  exact mem_splitOnCh_not_sep ',' tags.data g hg

theorem jsTrim_no_comma {s : String} (h : ',' ∉ s.data) : ',' ∉ (jsTrim s).data :=
  fun hm => h (trimC_subset s.data ',' hm)

theorem tagArray_no_comma (tags : String) : ∀ x ∈ tagArray tags, ',' ∉ x.data := by
  intro x hx
  unfold tagArray at hx
  by_cases h : tags = ""
  · simp [h] at hx
  · rw [if_pos h] at hx
    simp only [List.mem_map] at hx
    obtain ⟨y, hy, rfl⟩ := hx
    exact jsTrim_no_comma (mem_jsSplit_no_comma tags y hy)

theorem tagArray_trim_invariant (tags : String) : ∀ x ∈ tagArray tags, jsTrim x = x := by
  intro x hx
  unfold tagArray at hx
  by_cases h : tags = ""
  · simp [h] at hx
  · rw [if_pos h] at hx
    simp only [List.mem_map] at hx
    obtain ⟨y, _, rfl⟩ := hx
    exact jsTrim_idem y

theorem jsSplit_jsJoinComma (l : List String) (hne : l ≠ [])
    (hcm : ∀ x ∈ l, ',' ∉ x.data) : jsSplit ',' (jsJoinComma l) = l := by
  have hdata : (jsJoinComma l).data = joinCh ',' (l.map String.data) := rfl
  have hls : l.map String.data ≠ [] := by
    intro h
    exact hne (List.map_eq_nil_iff.mp h)
  have hmem : ∀ g ∈ l.map String.data, ',' ∉ g := by
    intro g hg
    obtain ⟨x, hx, rfl⟩ := List.mem_map.mp hg
    exact hcm x hx
  unfold jsSplit
  rw [hdata, splitOnCh_joinCh hls hmem, List.map_map]
  have : String.mk ∘ String.data = id := funext fun s => rfl
  rw [this, List.map_id]

/-- C7: for every record's tags string, adding a tag `x` that is not
already in the trimmed tag array and then removing `x` restores the
original tags string up to trim-normalisation of its elements; and adding
a tag that is already present is rejected (`addTag` returns `none`,
modelling the early return that issues no store update and leaves the
record's tags untouched).  The hypotheses on `x` — trimmed and
comma-free — are guaranteed at both call sites (`e.target.value.trim()`
and drag-and-drop of an existing vocabulary tag). -/
theorem tag_round_trip_spec :
    ∀ (tags tag : String), jsTrim tag = tag → ',' ∉ tag.data →
      ((tag ∉ tagArray tags →
          ∃ s, addTag tags tag = some s ∧ removeTag s tag = normalizeTags tags) ∧
        (tag ∈ tagArray tags → addTag tags tag = none)) := by
  intro tags tag htrim hcomma
  constructor
  · intro hnot
    refine ⟨jsJoinComma (tagArray tags ++ [tag]), ?_, ?_⟩
    · unfold addTag
      rw [if_neg]
      intro hc
      exact hnot (List.elem_iff.mp hc)
    · have hsplit : jsSplit ',' (jsJoinComma (tagArray tags ++ [tag]))
          = tagArray tags ++ [tag] := by
        refine jsSplit_jsJoinComma _ (by simp) ?_
        intro x hx
        rcases List.mem_append.mp hx with hx | hx
        · exact tagArray_no_comma tags x hx
        · rw [List.mem_singleton.mp hx]; exact hcomma
      unfold removeTag
      rw [hsplit]
      have hmap : (tagArray tags ++ [tag]).map jsTrim = tagArray tags ++ [tag] := by
        rw [List.map_append]
        congr 1
        · exact List.map_congr_left (tagArray_trim_invariant tags) |>.trans (List.map_id _)
        · simp [htrim]
      rw [hmap, List.filter_append]
      have hfa : (tagArray tags).filter (fun t => t != tag) = tagArray tags := by
        rw [List.filter_eq_self]
        intro a ha
        simp only [bne_iff_ne, ne_eq]
        intro he
        exact hnot (he ▸ ha)
      have hft : [tag].filter (fun t => t != tag) = [] := by simp
      rw [hfa, hft, List.append_nil]
      by_cases h : tags = ""
      · subst h; rfl
      · unfold normalizeTags tagArray
        rw [if_pos h]
  · intro hmem
    unfold addTag
    rw [if_pos (List.elem_iff.mpr hmem)]

/-- C7 witness: round trip at the concrete record tags `"a, b"` with new
tag `"x"`; both hypotheses and the non-membership are discharged by
computation, and the recovered string is the trim-normalised `"a,b"`. -/
theorem tag_round_trip_spec_witness :
    ∃ s, addTag "a, b" "x" = some s ∧ removeTag s "x" = normalizeTags "a, b" :=
  (tag_round_trip_spec "a, b" "x" (by decide) (by decide)).1 (by decide)

/-! ## Lexicographic string order (the default JS `Array.sort()` comparison) -/

/-- Lexicographic comparison of character lists by code point — the model
of the default JS `Array.prototype.sort()` string comparison. -/
def lexLeCh : List Char → List Char → Bool
  | [], _ => true
  | _ :: _, [] => false
  | a :: as, b :: bs =>
    if a.toNat < b.toNat then true
    else if b.toNat < a.toNat then false
    else lexLeCh as bs

/-- Lexicographic order on strings. -/
def strLe (a b : String) : Prop := lexLeCh a.data b.data = true

instance : DecidableRel strLe := fun a b =>
  inferInstanceAs (Decidable (lexLeCh a.data b.data = true))

theorem lexLeCh_total : ∀ (as bs : List Char), lexLeCh as bs = true ∨ lexLeCh bs as = true
  | [], _ => .inl rfl
  | _ :: _, [] => .inr rfl
  | a :: as, b :: bs => by
    by_cases h1 : a.toNat < b.toNat
    · left; simp [lexLeCh, h1]
    · by_cases h2 : b.toNat < a.toNat
      · right; simp [lexLeCh, h1, h2]
      · rcases lexLeCh_total as bs with h | h
        · left; simp [lexLeCh, h1, h2, h]
        · right; simp [lexLeCh, h1, h2, h]

theorem lexLeCh_trans : ∀ (as bs cs : List Char),
    lexLeCh as bs = true → lexLeCh bs cs = true → lexLeCh as cs = true
  | [], _, _ => fun _ _ => rfl
  | a :: as, [], _ => fun h _ => by simp [lexLeCh] at h
  | a :: as, b :: bs, [] => fun _ h => by simp [lexLeCh] at h
  | a :: as, b :: bs, c :: cs => fun h1 h2 => by
    simp only [lexLeCh] at h1 h2 ⊢
    by_cases hab : a.toNat < b.toNat
    · by_cases hbc : b.toNat < c.toNat
      · rw [if_pos (by omega)]
      · rw [if_neg hbc] at h2
        by_cases hcb : c.toNat < b.toNat
        · rw [if_pos hcb] at h2; exact absurd h2 (by simp)
        · rw [if_pos (by omega)]
    · rw [if_neg hab] at h1
      by_cases hba : b.toNat < a.toNat
      · rw [if_pos hba] at h1; exact absurd h1 (by simp)
      · rw [if_neg hba] at h1
        by_cases hbc : b.toNat < c.toNat
        · rw [if_pos (by omega)]
        · rw [if_neg hbc] at h2
          by_cases hcb : c.toNat < b.toNat
          · rw [if_pos hcb] at h2; exact absurd h2 (by simp)
          · rw [if_neg hcb] at h2
            rw [if_neg (by omega), if_neg (by omega)]
            exact lexLeCh_trans as bs cs h1 h2

instance : IsTotal String strLe := ⟨fun a b => lexLeCh_total a.data b.data⟩

instance : IsTrans String strLe := ⟨fun a b c => lexLeCh_trans a.data b.data c.data⟩

/-- The model of `Array.from(set).sort()`. -/
def jsSortStrings (l : List String) : List String := List.insertionSort strLe l

/-! ## Sidebar facet vocabularies (app.js, lines 159–205)

`updateSidebar` builds three JS `Set`s in one loop over the record set and
`drawTagList` sorts each.  A `Set` is modelled as an insertion-ordered
duplicate-free list with `setAdd`; the single loop is split here into one
fold per vocabulary, which builds exactly the same three sets because the
three accumulators never interact. -/

/-- Model of `Set.prototype.add`. -/
def setAdd (s : List String) (x : String) : List String :=
  if x ∈ s then s else s ++ [x]

/-- One loop step for the `formats` set: `if (video.codec)
formats.add(video.codec.toLowerCase())`. -/
def fmtStep (acc : List String) (v : Video) : List String :=
  if v.codec ≠ "" then setAdd acc (toLowerStr v.codec) else acc

/-- One loop step for the `resolutions` set. -/
def resStep (acc : List String) (v : Video) : List String :=
  setAdd acc (getResolutionCategory v.height)

/-- One split-tag step for the `userTags` set: trim, lower-case, skip
empties. -/
def tagStepInner (ts : List String) (t : String) : List String :=
  let tr := toLowerStr (jsTrim t)
  if tr ≠ "" then setAdd ts tr else ts

/-- One loop step for the `userTags` set: `if (video.tags)
video.tags.split(',').forEach(...)`. -/
def tagStep (acc : List String) (v : Video) : List String :=
  if v.tags ≠ "" then (jsSplit ',' v.tags).foldl tagStepInner acc else acc

/-- The sidebar `sys-format` vocabulary. -/
def sidebarFormats (videos : List Video) : List String :=
  jsSortStrings (videos.foldl fmtStep [])

/-- The sidebar `sys-res` vocabulary. -/
def sidebarResolutions (videos : List Video) : List String :=
  jsSortStrings (videos.foldl resStep [])

/-- The sidebar `user-tags` vocabulary. -/
def sidebarUserTags (videos : List Video) : List String :=
  jsSortStrings (videos.foldl tagStep [])

theorem mem_setAdd {s : List String} {x y : String} :
    y ∈ setAdd s x ↔ y ∈ s ∨ y = x := by
  unfold setAdd
  by_cases h : x ∈ s
  · rw [if_pos h]
    constructor
    · exact Or.inl
    · rintro (hy | rfl)
      · exact hy
      · exact h
  · rw [if_neg h]
    simp

theorem setAdd_nodup {s : List String} (x : String) (h : s.Nodup) : (setAdd s x).Nodup := by
  unfold setAdd
  by_cases hx : x ∈ s
  · rwa [if_pos hx]
  · rw [if_neg hx]
    simp [List.nodup_append, h, hx]

theorem mem_foldl_fmtStep :
    ∀ (videos : List Video) (acc : List String) (x : String),
      x ∈ videos.foldl fmtStep acc ↔
        x ∈ acc ∨ ∃ v ∈ videos, v.codec ≠ "" ∧ x = toLowerStr v.codec := by
  intro videos
  induction videos with
  | nil => simp
  | cons v vs ih =>
    intro acc x
    rw [List.foldl_cons, ih]
    unfold fmtStep
    by_cases h : v.codec ≠ ""
    · rw [if_pos h, mem_setAdd]
      simp only [List.mem_cons]
      constructor
      · rintro ((hy | rfl) | ⟨w, hw, hc, rfl⟩)
        · exact Or.inl hy
        · exact Or.inr ⟨v, Or.inl rfl, h, rfl⟩
        · exact Or.inr ⟨w, Or.inr hw, hc, rfl⟩
      · rintro (hy | ⟨w, hw | hw, hc, rfl⟩)
        · exact Or.inl (Or.inl hy)
        · exact Or.inl (Or.inr (by rw [hw]))
        · exact Or.inr ⟨w, hw, hc, rfl⟩
    · rw [if_neg h]
      simp only [List.mem_cons]
      constructor
      · rintro (hy | ⟨w, hw, hc, rfl⟩)
        · exact Or.inl hy
        · exact Or.inr ⟨w, Or.inr hw, hc, rfl⟩
      · rintro (hy | ⟨w, hw | hw, hc, rfl⟩)
        · exact Or.inl hy
        · exact absurd (hw ▸ hc) h
        · exact Or.inr ⟨w, hw, hc, rfl⟩

theorem mem_foldl_resStep :
    ∀ (videos : List Video) (acc : List String) (x : String),
      x ∈ videos.foldl resStep acc ↔
        x ∈ acc ∨ ∃ v ∈ videos, x = getResolutionCategory v.height := by
  intro videos
  induction videos with
  | nil => simp
  | cons v vs ih =>
    intro acc x
    rw [List.foldl_cons, ih]
    unfold resStep
    rw [mem_setAdd]
    simp only [List.mem_cons]
    constructor
    · rintro ((hy | rfl) | ⟨w, hw, rfl⟩)
      · exact Or.inl hy
      · exact Or.inr ⟨v, Or.inl rfl, rfl⟩
      · exact Or.inr ⟨w, Or.inr hw, rfl⟩
    · rintro (hy | ⟨w, hw | hw, rfl⟩)
      · exact Or.inl (Or.inl hy)
      · exact Or.inl (Or.inr (by rw [hw]))
      · exact Or.inr ⟨w, hw, rfl⟩

theorem mem_foldl_tagStepInner :
    ∀ (parts : List String) (acc : List String) (x : String),
      x ∈ parts.foldl tagStepInner acc ↔
        x ∈ acc ∨ ∃ t ∈ parts, toLowerStr (jsTrim t) ≠ "" ∧ x = toLowerStr (jsTrim t) := by
  intro parts
  induction parts with
  | nil => simp
  | cons t ts ih =>
    intro acc x
    rw [List.foldl_cons, ih]
    unfold tagStepInner
    by_cases h : toLowerStr (jsTrim t) ≠ ""
    · rw [if_pos h, mem_setAdd]
      simp only [List.mem_cons]
      constructor
      · rintro ((hy | rfl) | ⟨w, hw, hc, rfl⟩)
        · exact Or.inl hy
        · exact Or.inr ⟨t, Or.inl rfl, h, rfl⟩
        · exact Or.inr ⟨w, Or.inr hw, hc, rfl⟩
      · rintro (hy | ⟨w, hw | hw, hc, rfl⟩)
        · exact Or.inl (Or.inl hy)
        · exact Or.inl (Or.inr (by rw [hw]))
        · exact Or.inr ⟨w, hw, hc, rfl⟩
    · rw [if_neg h]
      simp only [List.mem_cons]
      constructor
      · rintro (hy | ⟨w, hw, hc, rfl⟩)
        · exact Or.inl hy
        · exact Or.inr ⟨w, Or.inr hw, hc, rfl⟩
      · rintro (hy | ⟨w, hw | hw, hc, rfl⟩)
        · exact Or.inl hy
        · exact absurd (hw ▸ hc) h
        · exact Or.inr ⟨w, hw, hc, rfl⟩

theorem mem_foldl_tagStep :
    ∀ (videos : List Video) (acc : List String) (x : String),
      x ∈ videos.foldl tagStep acc ↔
        x ∈ acc ∨ ∃ v ∈ videos, v.tags ≠ "" ∧
          ∃ t ∈ jsSplit ',' v.tags, toLowerStr (jsTrim t) ≠ "" ∧ x = toLowerStr (jsTrim t) := by
  intro videos
  induction videos with
  | nil => simp
  | cons v vs ih =>
    intro acc x
    rw [List.foldl_cons, ih]
    unfold tagStep
    by_cases h : v.tags ≠ ""
    · rw [if_pos h, mem_foldl_tagStepInner]
      simp only [List.mem_cons]
      constructor
      · rintro ((hy | ⟨t, ht, hc, rfl⟩) | ⟨w, hw, hwt, t, ht, hc, rfl⟩)
        · exact Or.inl hy
        · exact Or.inr ⟨v, Or.inl rfl, h, t, ht, hc, rfl⟩
        · exact Or.inr ⟨w, Or.inr hw, hwt, t, ht, hc, rfl⟩
      · rintro (hy | ⟨w, hw | hw, hwt, t, ht, hc, rfl⟩)
        · exact Or.inl (Or.inl hy)
        · exact Or.inl (Or.inr ⟨t, by rw [hw] at ht; exact ⟨ht, hc, rfl⟩⟩)
        · exact Or.inr ⟨w, hw, hwt, t, ht, hc, rfl⟩
    · rw [if_neg h]
      simp only [List.mem_cons]
      constructor
      · rintro (hy | ⟨w, hw, hwt, t, ht, hc, rfl⟩)
        · exact Or.inl hy
        · exact Or.inr ⟨w, Or.inr hw, hwt, t, ht, hc, rfl⟩
      · rintro (hy | ⟨w, hw | hw, hwt, t, ht, hc, rfl⟩)
        · exact Or.inl hy
        · exact absurd (hw ▸ hwt) h
        · exact Or.inr ⟨w, hw, hwt, t, ht, hc, rfl⟩

theorem foldl_fmtStep_nodup :
    ∀ (videos : List Video) (acc : List String), acc.Nodup → (videos.foldl fmtStep acc).Nodup := by
  intro videos
  induction videos with
  | nil => intro acc h; exact h
  | cons v vs ih =>
    intro acc h
    rw [List.foldl_cons]
    refine ih _ ?_
    unfold fmtStep
    by_cases hc : v.codec ≠ ""
    · rw [if_pos hc]; exact setAdd_nodup _ h
    · rwa [if_neg hc]

theorem foldl_resStep_nodup :
    ∀ (videos : List Video) (acc : List String), acc.Nodup → (videos.foldl resStep acc).Nodup := by
  intro videos
  induction videos with
  | nil => intro acc h; exact h
  | cons v vs ih =>
    intro acc h
    rw [List.foldl_cons]
    exact ih _ (setAdd_nodup _ h)

theorem foldl_tagStepInner_nodup :
    ∀ (parts : List String) (acc : List String), acc.Nodup →
      (parts.foldl tagStepInner acc).Nodup := by
  intro parts
  induction parts with
  | nil => intro acc h; exact h
  | cons t ts ih =>
    intro acc h
    rw [List.foldl_cons]
    refine ih _ ?_
    unfold tagStepInner
    by_cases hc : toLowerStr (jsTrim t) ≠ ""
    · rw [if_pos hc]; exact setAdd_nodup _ h
    · rwa [if_neg hc]

theorem foldl_tagStep_nodup :
    ∀ (videos : List Video) (acc : List String), acc.Nodup → (videos.foldl tagStep acc).Nodup := by
  intro videos
  induction videos with
  | nil => intro acc h; exact h
  | cons v vs ih =>
    intro acc h
    rw [List.foldl_cons]
    refine ih _ ?_
    unfold tagStep
    by_cases hc : v.tags ≠ ""
    · rw [if_pos hc]; exact foldl_tagStepInner_nodup _ _ h
    · rwa [if_neg hc]

theorem isWS_lowCh (c : Char) : isWS (lowCh c) = isWS c := by
  unfold lowCh
  split <;> first | rfl | decide

theorem trimC_map_lowCh (l : List Char) : trimC (l.map lowCh) = (trimC l).map lowCh := by
  have hdw : ∀ m : List Char, (m.map lowCh).dropWhile isWS = (m.dropWhile isWS).map lowCh := by
    intro m
    rw [List.dropWhile_map]
    have hfun : (isWS ∘ lowCh) = isWS := funext fun c => isWS_lowCh c
    rw [hfun]
  unfold trimC dropTrailWS
  rw [hdw, ← List.map_reverse, hdw, ← List.map_reverse]

theorem jsTrim_toLowerStr (s : String) : jsTrim (toLowerStr s) = toLowerStr (jsTrim s) := by
  simp [jsTrim, toLowerStr, trimC_map_lowCh]

/-- C8: each sidebar facet vocabulary is lexicographically sorted and
duplicate-free, and contains exactly the lowercased non-empty codecs, the
derived resolution classes, and the trimmed-lowercased non-empty user
tags of the record set respectively; every entry of the tag vocabulary is
non-empty and trim-invariant (hence not whitespace-only) and is the
lower-casing of a trimmed source tag. -/
theorem sidebar_vocab_spec :
    ∀ videos : List Video,
      (List.Sorted strLe (sidebarFormats videos) ∧ (sidebarFormats videos).Nodup ∧
        (∀ x, x ∈ sidebarFormats videos ↔
          ∃ v ∈ videos, v.codec ≠ "" ∧ x = toLowerStr v.codec)) ∧
      (List.Sorted strLe (sidebarResolutions videos) ∧ (sidebarResolutions videos).Nodup ∧
        (∀ x, x ∈ sidebarResolutions videos ↔
          ∃ v ∈ videos, x = getResolutionCategory v.height)) ∧
      (List.Sorted strLe (sidebarUserTags videos) ∧ (sidebarUserTags videos).Nodup ∧
        (∀ x, x ∈ sidebarUserTags videos ↔
          ∃ v ∈ videos, v.tags ≠ "" ∧
            ∃ t ∈ jsSplit ',' v.tags, toLowerStr (jsTrim t) ≠ "" ∧
              x = toLowerStr (jsTrim t)) ∧
        (∀ x ∈ sidebarUserTags videos, x ≠ "" ∧ jsTrim x = x)) := by
  intro videos
  refine ⟨⟨?_, ?_, ?_⟩, ⟨?_, ?_, ?_⟩, ⟨?_, ?_, ?_, ?_⟩⟩
  · exact List.sorted_insertionSort strLe _
  · exact (List.perm_insertionSort strLe _).nodup_iff.mpr (foldl_fmtStep_nodup _ _ List.nodup_nil)
  · intro x
    unfold sidebarFormats jsSortStrings
    rw [List.mem_insertionSort, mem_foldl_fmtStep]
    simp
  · exact List.sorted_insertionSort strLe _
  · exact (List.perm_insertionSort strLe _).nodup_iff.mpr (foldl_resStep_nodup _ _ List.nodup_nil)
  · intro x
    unfold sidebarResolutions jsSortStrings
    rw [List.mem_insertionSort, mem_foldl_resStep]
    simp
  · exact List.sorted_insertionSort strLe _
  · exact (List.perm_insertionSort strLe _).nodup_iff.mpr (foldl_tagStep_nodup _ _ List.nodup_nil)
  · intro x
    unfold sidebarUserTags jsSortStrings
    rw [List.mem_insertionSort, mem_foldl_tagStep]
    simp
  · intro x hx
    unfold sidebarUserTags jsSortStrings at hx
    rw [List.mem_insertionSort, mem_foldl_tagStep] at hx
    rcases hx with hx | ⟨v, _, _, t, _, hne, rfl⟩
    · exact absurd hx (List.not_mem_nil x)
    · refine ⟨hne, ?_⟩
      rw [jsTrim_toLowerStr, jsTrim_idem]

/-- C8 witness: the vocabulary theorem applied to a concrete two-record
set; the membership characterisation certifies that the tag `"b"` (from
the raw tag string `" B , a"`) is in the derived tag vocabulary. -/
theorem sidebar_vocab_spec_witness :
    "b" ∈ sidebarUserTags
      [⟨"/v/1.mp4", "1.mp4", "", "", "HAP", 1920, 1080, "30.00", " B , a"⟩,
       ⟨"/v/2.mp4", "2.mp4", "", "", "h264", 1280, 720, "25.00", ""⟩] :=
  ((sidebar_vocab_spec _).2.2.2.2.1 "b").mpr
    ⟨⟨"/v/1.mp4", "1.mp4", "", "", "HAP", 1920, 1080, "30.00", " B , a"⟩,
      by decide, by decide, " B ", by decide, by decide, by decide⟩

/-! ## Ingestion pipeline (ipc-handlers.cjs, lines 43–91)

The handler iterates over the discovered candidates with a 1-based running
counter `current` and a fixed `total`; per file it either skips a
duplicate, analyzes-and-inserts, or reports an error, sending exactly one
progress event; after a successful insert with `current % 5 === 0` it
additionally awaits a 30 ms timeout.  `analyzeLightweight` is the oracle
`probe`; the `videos` table is the insertion-ordered `store`. -/

/-- The stream metadata of a successful `analyzeLightweight`, minus the
fields the extractor derives from the path itself. -/
structure Meta where
  thumbnail : String
  codec : String
  width : Nat
  height : Nat
  fps : String
deriving DecidableEq

/-- The record resolved by `analyzeLightweight` for path `f`: `path` is the
probed path, `name` its basename, `preview` and `tags` empty. -/
def mkVideo (f : String) (m : Meta) : Video :=
  { path := f, name := basename f, thumbnail := m.thumbnail, preview := "",
    codec := m.codec, width := m.width, height := m.height, fps := m.fps, tags := "" }

/-- One progress event (`current`, `total`, `file` label, `data` record). -/
structure Ev where
  current : Nat
  total : Nat
  file : String
  data : Option Video
deriving DecidableEq

/-- `SELECT path FROM videos WHERE path=?` finds a row. -/
def hasPath (store : List Video) (f : String) : Bool :=
  store.any fun v => v.path == f

/-- Embedding of the `analyze-videos` loop body, returning the final store
and the emitted event stream. -/
def ingestLoop (probe : String → Option Meta) (total : Nat) :
    Nat → List Video → List String → List Video × List Ev
  | _, store, [] => (store, [])
  | cur, store, f :: fs =>
    if hasPath store f then
      let r := ingestLoop probe total (cur + 1) store fs
      (r.1, ⟨cur + 1, total, "Skipped: " ++ basename f, none⟩ :: r.2)
    else
      match probe f with
      | some m =>
        let v := mkVideo f m
        let r := ingestLoop probe total (cur + 1) (store ++ [v]) fs
        (r.1, ⟨cur + 1, total, v.name, some v⟩ :: r.2)
      | none =>
        let r := ingestLoop probe total (cur + 1) store fs
        (r.1, ⟨cur + 1, total, "Error: " ++ basename f, none⟩ :: r.2)

/-- Embedding of the `analyze-videos` handler on a discovered candidate
list: `total` is fixed up front at the candidate count, the counter starts
at 0 and is incremented at the top of the loop body. -/
def analyzeVideos (probe : String → Option Meta) (store : List Video)
    (files : List String) : List Video × List Ev :=
  ingestLoop probe files.length 0 store files

theorem hasPath_append (store ext : List Video) (f : String) :
    hasPath (store ++ ext) f = (hasPath store f || hasPath ext f) := by
  simp [hasPath, List.any_append]

theorem ingestLoop_store_prefix (probe : String → Option Meta) (total : Nat) :
    ∀ (fs : List String) (cur : Nat) (store : List Video),
      ∃ ext, (ingestLoop probe total cur store fs).1 = store ++ ext := by
  intro fs
  induction fs with
  | nil => intro cur store; exact ⟨[], by simp [ingestLoop]⟩
  | cons f fs ih =>
    intro cur store
    unfold ingestLoop
    by_cases h : hasPath store f = true
    · rw [if_pos h]
      exact ih (cur + 1) store
    · rw [if_neg h]
      cases hp : probe f with
      | some m =>
        obtain ⟨ext, hext⟩ := ih (cur + 1) (store ++ [mkVideo f m])
        exact ⟨mkVideo f m :: ext, by simp [hext]⟩
      | none => exact ih (cur + 1) store

theorem ingestLoop_store_mono (probe : String → Option Meta) (total : Nat)
    (fs : List String) (cur : Nat) (store : List Video) (f : String)
    (h : hasPath store f = true) :
    hasPath (ingestLoop probe total cur store fs).1 f = true := by
  obtain ⟨ext, hext⟩ := ingestLoop_store_prefix probe total fs cur store
  rw [hext, hasPath_append, h, Bool.true_or]

theorem ingestLoop_success_in_store (probe : String → Option Meta) (total : Nat) :
    ∀ (fs : List String) (cur : Nat) (store : List Video) (f : String),
      f ∈ fs → (probe f).isSome = true →
      hasPath (ingestLoop probe total cur store fs).1 f = true := by
  intro fs
  induction fs with
  | nil => intro cur store f hf; exact absurd hf (List.not_mem_nil f)
  | cons g fs ih =>
    intro cur store f hf hsome
    unfold ingestLoop
    rcases List.mem_cons.mp hf with rfl | hf
    · by_cases h : hasPath store f = true
      · rw [if_pos h]
        exact ingestLoop_store_mono probe total fs (cur + 1) store f h
      · rw [if_neg h]
        cases hp : probe f with
        | some m =>
          refine ingestLoop_store_mono probe total fs (cur + 1) _ f ?_
          rw [hasPath_append, Bool.or_eq_true]
          right
          simp [hasPath, mkVideo]
        | none => rw [hp] at hsome; exact absurd hsome (by simp)
    · by_cases h : hasPath store g = true
      · rw [if_pos h]
        exact ih (cur + 1) store f hf hsome
      · rw [if_neg h]
        cases hp : probe g with
        | some m => exact ih (cur + 1) (store ++ [mkVideo g m]) f hf hsome
        | none => exact ih (cur + 1) store f hf hsome

theorem ingestLoop_all_present (probe : String → Option Meta) (total : Nat) :
    ∀ (fs : List String) (cur : Nat) (store : List Video),
      (∀ f ∈ fs, hasPath store f = true) →
      (ingestLoop probe total cur store fs).1 = store ∧
        ∀ e ∈ (ingestLoop probe total cur store fs).2,
          e.data = none ∧ ∃ f ∈ fs, e.file = "Skipped: " ++ basename f := by
  intro fs
  induction fs with
  | nil => intro cur store _; exact ⟨rfl, by simp [ingestLoop]⟩
  | cons g fs ih =>
    intro cur store hall
    have hg : hasPath store g = true := hall g (List.mem_cons_self g fs)
    have hrest : ∀ f ∈ fs, hasPath store f = true :=
      fun f hf => hall f (List.mem_cons_of_mem g hf)
    obtain ⟨hst, hev⟩ := ih (cur + 1) store hrest
    unfold ingestLoop
    rw [if_pos hg]
    refine ⟨hst, ?_⟩
    intro e he
    rcases List.mem_cons.mp he with rfl | he
    · exact ⟨rfl, g, List.mem_cons_self g fs, rfl⟩
    · obtain ⟨hd, f, hf, hfile⟩ := hev e he
      exact ⟨hd, f, List.mem_cons_of_mem g hf, hfile⟩

/-- C2: ingestion is idempotent on the record store.  A candidate whose
path is already in the store yields exactly one `Skipped: <basename>`
event with a null record and leaves the store untouched; and under the
assumption that every candidate either is already catalogued or probes
successfully (so that the first pass catalogues it), running the same
candidate list a second time leaves the store of the first pass unchanged
and emits only `Skipped` events with null records. -/
theorem ingest_idempotent_spec :
    (∀ (probe : String → Option Meta) (store : List Video) (f : String),
        hasPath store f = true →
        analyzeVideos probe store [f] =
          (store, [⟨1, 1, "Skipped: " ++ basename f, none⟩])) ∧
      (∀ (probe : String → Option Meta) (store : List Video) (files : List String),
        (∀ f ∈ files, hasPath store f = true ∨ (probe f).isSome = true) →
        (analyzeVideos probe (analyzeVideos probe store files).1 files).1
            = (analyzeVideos probe store files).1 ∧
          ∀ e ∈ (analyzeVideos probe (analyzeVideos probe store files).1 files).2,
            e.data = none ∧ ∃ f ∈ files, e.file = "Skipped: " ++ basename f) := by
  constructor
  · intro probe store f h
    unfold analyzeVideos ingestLoop
    rw [if_pos h]
    rfl
  · intro probe store files h
    have hall : ∀ f ∈ files, hasPath (analyzeVideos probe store files).1 f = true := by
      intro f hf
      rcases h f hf with hp | hp
      · exact ingestLoop_store_mono probe files.length files 0 store f hp
      · exact ingestLoop_success_in_store probe files.length files 0 store f hf hp
    exact ingestLoop_all_present probe files.length files 0 _ hall

/-- A concrete extraction oracle: succeeds on every path except
`"/w/bad.avi"`. -/
def probeW : String → Option Meta := fun f =>
  if f = "/w/bad.avi" then none else some ⟨"/t/w.jpg", "h264", 640, 360, "30.00"⟩

/-- C2 witness: the idempotence theorem applied to a concrete two-file
batch over an empty store; the second pass leaves the store of the first
pass unchanged. -/
theorem ingest_idempotent_spec_witness :
    (analyzeVideos probeW (analyzeVideos probeW [] ["/w/a.mp4", "/w/b.mov"]).1
        ["/w/a.mp4", "/w/b.mov"]).1
      = (analyzeVideos probeW [] ["/w/a.mp4", "/w/b.mov"]).1 :=
  (ingest_idempotent_spec.2 probeW [] ["/w/a.mp4", "/w/b.mov"] (by decide)).1

theorem ingestLoop_length (probe : String → Option Meta) (total : Nat) :
    ∀ (fs : List String) (cur : Nat) (store : List Video),
      (ingestLoop probe total cur store fs).2.length = fs.length := by
  intro fs
  induction fs with
  | nil => intro cur store; rfl
  | cons g fs ih =>
    intro cur store
    unfold ingestLoop
    by_cases h : hasPath store g = true
    · rw [if_pos h]; simp [ih]
    · rw [if_neg h]
      cases hp : probe g <;> simp [ih]

theorem ingestLoop_event_position (probe : String → Option Meta) (total : Nat) :
    ∀ (fs : List String) (cur : Nat) (store : List Video) (i : Nat) (e : Ev),
      (ingestLoop probe total cur store fs).2[i]? = some e →
      e.current = cur + i + 1 ∧ e.total = total := by
  intro fs
  induction fs with
  | nil => intro cur store i e h; simp [ingestLoop] at h
  | cons g fs ih =>
    intro cur store i e h
    unfold ingestLoop at h
    by_cases hg : hasPath store g = true
    · rw [if_pos hg] at h
      cases i with
      | zero => simp at h; rw [← h]; exact ⟨rfl, rfl⟩
      | succ i =>
        simp only [List.getElem?_cons_succ] at h
        have := ih (cur + 1) store i e h
        omega
    · rw [if_neg hg] at h
      cases hp : probe g with
      | some m =>
        rw [hp] at h
        cases i with
        | zero => simp at h; rw [← h]; exact ⟨rfl, rfl⟩
        | succ i =>
          simp only [List.getElem?_cons_succ] at h
          have := ih (cur + 1) (store ++ [mkVideo g m]) i e h
          omega
      | none =>
        rw [hp] at h
        cases i with
        | zero => simp at h; rw [← h]; exact ⟨rfl, rfl⟩
        | succ i =>
          simp only [List.getElem?_cons_succ] at h
          have := ih (cur + 1) store i e h
          omega

theorem ingestLoop_error_event (probe : String → Option Meta) (total : Nat) :
    ∀ (fs : List String) (cur : Nat) (store : List Video) (i : Nat) (f : String),
      fs[i]? = some f → hasPath store f = false → probe f = none →
      (ingestLoop probe total cur store fs).2[i]? =
        some ⟨cur + i + 1, total, "Error: " ++ basename f, none⟩ := by
  intro fs
  induction fs with
  | nil => intro cur store i f h; simp at h
  | cons g fs ih =>
    intro cur store i f hf hstore hprobe
    cases i with
    | zero =>
      simp only [List.getElem?_cons_zero, Option.some_inj] at hf
      subst hf
      unfold ingestLoop
      rw [if_neg (by rw [hstore]; simp), hprobe]
      simp
    | succ i =>
      simp only [List.getElem?_cons_succ] at hf
      unfold ingestLoop
      by_cases hg : hasPath store g = true
      · rw [if_pos hg]
        simp only [List.getElem?_cons_succ]
        have := ih (cur + 1) store i f hf hstore hprobe
        rw [this, show cur + 1 + i + 1 = cur + (i + 1) + 1 by omega]
      · rw [if_neg hg]
        cases hp : probe g with
        | some m =>
          have hgf : g ≠ f := by
            intro he
            rw [he, hprobe] at hp
            exact Option.noConfusion hp
          have hstore2 : hasPath (store ++ [mkVideo g m]) f = false := by
            rw [hasPath_append, hstore, Bool.false_or]
            simp [hasPath, mkVideo, hgf]
          simp only [List.getElem?_cons_succ]
          have := ih (cur + 1) (store ++ [mkVideo g m]) i f hf hstore2 hprobe
          rw [this, show cur + 1 + i + 1 = cur + (i + 1) + 1 by omega]
        | none =>
          simp only [List.getElem?_cons_succ]
          have := ih (cur + 1) store i f hf hstore hprobe
          rw [this]
          congr 2
          omega

/-- C3: for every batch, ingestion emits exactly one progress event per
discovered candidate — the event stream has exactly the candidate count as
its length, with `total` fixed up front at that count and `current` equal
to the candidate's 1-based position; a candidate that is not yet
catalogued and whose extraction fails produces an `Error: <basename>`
event with a null record at its own position while every other
successfully probed file is still persisted (failure isolation); and the
final event satisfies `current = total`. -/
theorem ingest_progress_spec :
    ∀ (probe : String → Option Meta) (store : List Video) (files : List String),
      ((analyzeVideos probe store files).2.length = files.length) ∧
        (∀ (i : Nat) (e : Ev), (analyzeVideos probe store files).2[i]? = some e →
          e.current = i + 1 ∧ e.total = files.length) ∧
        (∀ f ∈ files, (probe f).isSome = true →
          hasPath (analyzeVideos probe store files).1 f = true) ∧
        (∀ (i : Nat) (f : String), files[i]? = some f →
          hasPath store f = false → probe f = none →
          (analyzeVideos probe store files).2[i]? =
            some ⟨i + 1, files.length, "Error: " ++ basename f, none⟩) ∧
        (files ≠ [] →
          ∃ e, (analyzeVideos probe store files).2[files.length - 1]? = some e ∧
            e.current = files.length) := by
  intro probe store files
  refine ⟨?_, ?_, ?_, ?_, ?_⟩
  · exact ingestLoop_length probe files.length files 0 store
  · intro i e h
    have := ingestLoop_event_position probe files.length files 0 store i e h
    omega
  · intro f hf hp
    exact ingestLoop_success_in_store probe files.length files 0 store f hf hp
  · intro i f hf hstore hprobe
    have := ingestLoop_error_event probe files.length files 0 store i f hf hstore hprobe
    unfold analyzeVideos
    rw [this, show 0 + i + 1 = i + 1 by omega]
  · intro hne
    have hlen := ingestLoop_length probe files.length files 0 store
    have hpos : 0 < files.length := List.length_pos.mpr hne
    have hidx : files.length - 1 < (analyzeVideos probe store files).2.length := by
      unfold analyzeVideos
      omega
    refine ⟨(analyzeVideos probe store files).2[files.length - 1], ?_, ?_⟩
    · exact List.getElem?_eq_getElem hidx
    · have := ingestLoop_event_position probe files.length files 0 store
        (files.length - 1) _ (List.getElem?_eq_getElem hidx)
      omega

/-- C3 witness: the progress theorem applied to a concrete three-file
batch whose second file fails extraction; the error event appears at
position 2 of 3 with a null record. -/
theorem ingest_progress_spec_witness :
    (analyzeVideos probeW [] ["/w/1.mp4", "/w/bad.avi", "/w/3.mp4"]).2[1]? =
      some ⟨2, 3, "Error: " ++ basename "/w/bad.avi", none⟩ :=
  (ingest_progress_spec probeW [] ["/w/1.mp4", "/w/bad.avi", "/w/3.mp4"]).2.2.2.1
    1 "/w/bad.avi" (by decide) (by decide) (by decide)

/-! ## The every-5th-file pause (ipc-handlers.cjs, lines 77–80)

The `await new Promise(resolve => setTimeout(resolve, 30))` sits inside the
`try` block after the successful insert and its progress send; the
duplicate branch reaches `continue` before it and the error branch jumps
to `catch`, so only a successful insert can pause.  The trace below
records both the events and the pauses in emission order. -/

/-- One observable step of the loop: a progress event or the 30 ms pause. -/
inductive PipeItem where
  | ev : Ev → PipeItem
  | pause : PipeItem
deriving DecidableEq

/-- The `analyze-videos` loop again, now recording pauses in the trace. -/
def ingestTraceLoop (probe : String → Option Meta) (total : Nat) :
    Nat → List Video → List String → List Video × List PipeItem
  | _, store, [] => (store, [])
  | cur, store, f :: fs =>
    if hasPath store f then
      let r := ingestTraceLoop probe total (cur + 1) store fs
      (r.1, .ev ⟨cur + 1, total, "Skipped: " ++ basename f, none⟩ :: r.2)
    else
      match probe f with
      | some m =>
        let v := mkVideo f m
        let r := ingestTraceLoop probe total (cur + 1) (store ++ [v]) fs
        (r.1, .ev ⟨cur + 1, total, v.name, some v⟩ ::
          ((if (cur + 1) % 5 = 0 then [PipeItem.pause] else []) ++ r.2))
      | none =>
        let r := ingestTraceLoop probe total (cur + 1) store fs
        (r.1, .ev ⟨cur + 1, total, "Error: " ++ basename f, none⟩ :: r.2)

/-- The handler with its pause trace. -/
def analyzeVideosTrace (probe : String → Option Meta) (store : List Video)
    (files : List String) : List Video × List PipeItem :=
  ingestTraceLoop probe files.length 0 store files

/-- A concrete oracle for the pause counterexample: every probe succeeds. -/
def probeC : String → Option Meta := fun _ => some ⟨"/t/c.jpg", "hap", 1280, 720, "30.00"⟩

/-- A store that already holds the batch's fifth path. -/
def storeC : List Video := [mkVideo "/c/p5.mp4" ⟨"/t/c.jpg", "hap", 1280, 720, "30.00"⟩]

/-- A five-file batch whose fifth candidate is the already-catalogued path. -/
def filesC : List String :=
  ["/c/p1.mp4", "/c/p2.mp4", "/c/p3.mp4", "/c/p4.mp4", "/c/p5.mp4"]

/-- C9 counterexample: the claim says the pipeline pauses after every 5th
processed file regardless of whether that file was skipped, errored or
inserted.  In this five-file batch the 5th file is skipped as a duplicate:
all five files are processed (five events) yet the trace contains no pause
at all — the pause statement is only reached after a successful insert. -/
theorem ingest_pause_counterexample :
    (analyzeVideosTrace probeC storeC filesC).2.length = 5 ∧
      PipeItem.pause ∉ (analyzeVideosTrace probeC storeC filesC).2 := by
  exact ⟨by decide, by decide⟩

/-- C9 (amended): the pipeline pauses briefly exactly after each
successfully analyzed-and-inserted file whose 1-based position `current`
is a multiple of 5; skipped duplicates and errored files never trigger the
pause.  Formally, the trace is the event stream with a pause inserted
after precisely those events that carry a record (`data` non-null) and
whose `current` is divisible by 5. -/
theorem ingest_pause_amended_spec :
    ∀ (probe : String → Option Meta) (store : List Video) (files : List String),
      (analyzeVideosTrace probe store files).1 = (analyzeVideos probe store files).1 ∧
        (analyzeVideosTrace probe store files).2 =
          (analyzeVideos probe store files).2.flatMap (fun e =>
            PipeItem.ev e ::
              (if e.data.isSome = true ∧ e.current % 5 = 0 then [PipeItem.pause] else [])) := by
  have main : ∀ (probe : String → Option Meta) (total : Nat) (fs : List String)
      (cur : Nat) (store : List Video),
      (ingestTraceLoop probe total cur store fs).1 = (ingestLoop probe total cur store fs).1 ∧
        (ingestTraceLoop probe total cur store fs).2 =
          (ingestLoop probe total cur store fs).2.flatMap (fun e =>
            PipeItem.ev e ::
              (if e.data.isSome = true ∧ e.current % 5 = 0 then [PipeItem.pause] else [])) := by
    intro probe total fs
    induction fs with
    | nil => intro cur store; exact ⟨rfl, rfl⟩
    | cons f fs ih =>
      intro cur store
      unfold ingestTraceLoop ingestLoop
      by_cases h : hasPath store f = true
      · obtain ⟨ih1, ih2⟩ := ih (cur + 1) store
        rw [if_pos h, if_pos h]
        refine ⟨ih1, ?_⟩
        simp [ih2]
      · rw [if_neg h, if_neg h]
        cases hp : probe f with
        | some m =>
          obtain ⟨ih1, ih2⟩ := ih (cur + 1) (store ++ [mkVideo f m])
          refine ⟨ih1, ?_⟩
          simp only [List.flatMap_cons, ih2]
          by_cases h5 : (cur + 1) % 5 = 0 <;> simp [h5]
        | none =>
          obtain ⟨ih1, ih2⟩ := ih (cur + 1) store
          refine ⟨ih1, ?_⟩
          simp [ih2]
  intro probe store files
  exact main probe files.length files 0 store

/-! ## Decimal-numeral injectivity

`exportFiles` disambiguates name collisions with `${name}_${counter}${ext}`;
to show the loop always finds a fresh name we need the decimal numeral of
the counter to be injective, which follows from `decimalVal` being a left
inverse of `natDigits`. -/

theorem digCh_toNat {n : Nat} (h : n < 10) : (digCh n).toNat = 48 + n := by
  interval_cases n <;> decide

theorem decimalVal_append_digit (l : List Char) (c : Char) :
    decimalVal (l ++ [c]) = 10 * decimalVal l + digVal c := by
  simp [decimalVal, List.foldl_append]

theorem decimalVal_natDigitsAux :
    ∀ (fuel n : Nat), n ≤ fuel → decimalVal (natDigitsAux fuel n) = n := by
  intro fuel
  induction fuel with
  | zero =>
    intro n h
    interval_cases n
    decide
  | succ fuel ih =>
    intro n h
    unfold natDigitsAux
    by_cases h10 : n < 10
    · rw [if_pos h10]
      show decimalVal [digCh n] = n
      simp [decimalVal, digVal, digCh_toNat h10]
    · rw [if_neg h10]
      have hlt : n / 10 < n := Nat.div_lt_self (by omega) (by omega)
      have hle : n / 10 ≤ fuel := by omega
      rw [decimalVal_append_digit, ih (n / 10) hle]
      have hmod : (digCh (n % 10)).toNat = 48 + n % 10 :=
        digCh_toNat (Nat.mod_lt n (by omega))
      unfold digVal
      rw [hmod]
      omega

theorem decimalVal_natDigits (n : Nat) : decimalVal (natDigits n) = n :=
  decimalVal_natDigitsAux n n (Nat.le_refl n)

theorem natStr_inj {a b : Nat} (h : natStr a = natStr b) : a = b := by
  have hd : natDigits a = natDigits b := congrArg String.data h
  have hv := congrArg decimalVal hd
  rwa [decimalVal_natDigits a, decimalVal_natDigits b] at hv

/-! ## File export (file-utils.cjs, lines 72–110)

The destination directory's contents are the list `existing` of full
destination paths for which `fs.existsSync` is true; `copyOk` models
whether `fs.copyFileSync` succeeds for a source path and `statOk` whether
the subsequent `fs.statSync` on the source succeeds (each `false` = the
call throws into the per-file `catch`). -/

/-- The collision candidate `path.join(destinationDir,
parsed.name + "_" + counter + parsed.ext)`. -/
def mkCandidate (destDir stem ext : String) (k : Nat) : String :=
  pjoin destDir (stem ++ "_" ++ natStr k ++ ext)

/-- `path.parse(fileName).name`: the basename minus its extension. -/
def stemOf (fileName : String) : String :=
  String.mk (fileName.data.take (fileName.data.length - (extname fileName).data.length))

theorem mkCandidate_inj (destDir stem ext : String) {k k' : Nat}
    (h : mkCandidate destDir stem ext k = mkCandidate destDir stem ext k') : k = k' := by
  unfold mkCandidate pjoin at h
  have hd := congrArg String.data h
  simp only [String.data_append, List.append_assoc] at hd
  have h1 := List.append_cancel_left hd
  have h2 := List.append_cancel_left h1
  have h3 := List.append_cancel_left h2
  have h4 := List.append_cancel_left h3
  have h5 := List.append_cancel_right h4
  exact natStr_inj (congrArg String.mk h5)

/-- The `while (fs.existsSync(destPath))` renaming loop, with enough fuel
to be total; `k` is the JS `counter`. -/
def findFresh (existing : List String) (destDir stem ext : String) :
    Nat → Nat → String
  | 0, k => mkCandidate destDir stem ext k
  | fuel + 1, k =>
    let cand := mkCandidate destDir stem ext k
    if cand ∈ existing then findFresh existing destDir stem ext fuel (k + 1) else cand

/-- The destination path chosen for one exported file: the plain basename
when it does not yet exist in the destination, otherwise the first fresh
`name_k.ext`, `k = 1, 2, …`. -/
def chooseDest (existing : List String) (destDir fileName : String) : String :=
  let base := pjoin destDir fileName
  if base ∈ existing then
    findFresh existing destDir (stemOf fileName) (extname fileName) (existing.length + 1) 1
  else base

theorem findFresh_spec (existing : List String) (destDir stem ext : String) :
    ∀ (fuel k : Nat),
      (∃ j, k ≤ j ∧ j < k + fuel ∧ mkCandidate destDir stem ext j ∉ existing) →
      ∃ j, k ≤ j ∧ findFresh existing destDir stem ext fuel k = mkCandidate destDir stem ext j ∧
        mkCandidate destDir stem ext j ∉ existing ∧
        ∀ i, k ≤ i → i < j → mkCandidate destDir stem ext i ∈ existing := by
  intro fuel
  induction fuel with
  | zero =>
    intro k h
    obtain ⟨j, h1, h2, _⟩ := h
    omega
  | succ fuel ih =>
    intro k h
    unfold findFresh
    by_cases hc : mkCandidate destDir stem ext k ∈ existing
    · rw [if_pos hc]
      have hnext : ∃ j, k + 1 ≤ j ∧ j < (k + 1) + fuel ∧
          mkCandidate destDir stem ext j ∉ existing := by
        obtain ⟨j, h1, h2, h3⟩ := h
        refine ⟨j, ?_, by omega, h3⟩
        rcases Nat.eq_or_lt_of_le h1 with rfl | hlt
        · exact absurd hc h3
        · omega
      obtain ⟨j, hj1, hj2, hj3, hj4⟩ := ih (k + 1) hnext
      refine ⟨j, by omega, hj2, hj3, ?_⟩
      intro i hi1 hi2
      rcases Nat.eq_or_lt_of_le hi1 with rfl | hlt
      · exact hc
      · exact hj4 i (by omega) hi2
    · rw [if_neg hc]
      exact ⟨k, Nat.le_refl k, rfl, hc, fun i h1 h2 => by omega⟩

theorem exists_fresh_candidate (existing : List String) (destDir stem ext : String) :
    ∃ j, 1 ≤ j ∧ j < 1 + (existing.length + 1) ∧
      mkCandidate destDir stem ext j ∉ existing := by
  by_contra hno
  push_neg at hno
  have hall : ∀ j, 1 ≤ j → j < existing.length + 2 → mkCandidate destDir stem ext j ∈ existing := by
    intro j h1 h2
    exact hno j h1 (by omega)
  have hinj : Function.Injective fun i : Nat => mkCandidate destDir stem ext (i + 1) := by
    intro a b hab
    have := mkCandidate_inj destDir stem ext hab
    omega
  have hnodup : ((List.range (existing.length + 1)).map
      fun i => mkCandidate destDir stem ext (i + 1)).Nodup :=
    (List.nodup_range _).map hinj
  have hsub : ((List.range (existing.length + 1)).map
      fun i => mkCandidate destDir stem ext (i + 1)) ⊆ existing := by
    intro x hx
    obtain ⟨i, hi, rfl⟩ := List.mem_map.mp hx
    have hilt := List.mem_range.mp hi
    exact hall (i + 1) (by omega) (by omega)
  have hlen := (hnodup.subperm hsub).length_le
  simp at hlen

theorem chooseDest_spec (existing : List String) (destDir fileName : String) :
    chooseDest existing destDir fileName ∉ existing ∧
      (pjoin destDir fileName ∉ existing →
        chooseDest existing destDir fileName = pjoin destDir fileName) ∧
      (pjoin destDir fileName ∈ existing →
        ∃ k, 1 ≤ k ∧
          chooseDest existing destDir fileName =
            mkCandidate destDir (stemOf fileName) (extname fileName) k ∧
          mkCandidate destDir (stemOf fileName) (extname fileName) k ∉ existing ∧
          ∀ j, 1 ≤ j → j < k →
            mkCandidate destDir (stemOf fileName) (extname fileName) j ∈ existing) := by
  unfold chooseDest
  by_cases hb : pjoin destDir fileName ∈ existing
  · rw [if_pos hb]
    obtain ⟨j, hj1, hj2, hj3, hj4⟩ :=
      findFresh_spec existing destDir (stemOf fileName) (extname fileName)
        (existing.length + 1) 1
        (exists_fresh_candidate existing destDir (stemOf fileName) (extname fileName))
    refine ⟨by rw [hj2]; exact hj3, fun hnb => absurd hb hnb, fun _ => ⟨j, hj1, hj2, hj3, hj4⟩⟩
  · rw [if_neg hb]
    exact ⟨hb, fun _ => rfl, fun hc => absurd hc hb⟩

/-- The aggregate result object of `exportFiles`; each error entry is
recorded here by the failed file's basename (its `error` message comes from
the thrown exception and stays outside the model). -/
structure ExportResult where
  success : Nat
  failed : Nat
  totalSize : Nat
  errors : List String
deriving DecidableEq

/-- Embedding of the `exportFiles` loop: per source file pick a
collision-free destination, copy, and stat the source for its size; a
throwing copy changes nothing on disk, a throwing stat comes after the
copy has landed; either failure increments `failed` and appends one error
entry, then the loop continues. -/
def exportLoop (copyOk statOk : String → Bool) (fsize : String → Nat) (destDir : String) :
    List String → List String → ExportResult → ExportResult × List String
  | [], existing, acc => (acc, existing)
  | f :: fs, existing, acc =>
    let dest := chooseDest existing destDir (basename f)
    if copyOk f then
      if statOk f then
        exportLoop copyOk statOk fsize destDir fs (existing ++ [dest])
          { acc with success := acc.success + 1, totalSize := acc.totalSize + fsize f }
      else
        exportLoop copyOk statOk fsize destDir fs (existing ++ [dest])
          { acc with failed := acc.failed + 1, errors := acc.errors ++ [basename f] }
    else
      exportLoop copyOk statOk fsize destDir fs existing
        { acc with failed := acc.failed + 1, errors := acc.errors ++ [basename f] }

/-- Embedding of `exportFiles`: all counters start at zero. -/
def exportFiles (copyOk statOk : String → Bool) (fsize : String → Nat)
    (files : List String) (destDir : String) (existing : List String) :
    ExportResult × List String :=
  exportLoop copyOk statOk fsize destDir files existing ⟨0, 0, 0, []⟩

theorem exportLoop_spec (copyOk statOk : String → Bool) (fsize : String → Nat)
    (destDir : String) :
    ∀ (fs : List String) (existing : List String) (acc : ExportResult),
      ((exportLoop copyOk statOk fsize destDir fs existing acc).1.success +
          (exportLoop copyOk statOk fsize destDir fs existing acc).1.failed =
        acc.success + acc.failed + fs.length) ∧
      (acc.errors.length = acc.failed →
        (exportLoop copyOk statOk fsize destDir fs existing acc).1.errors.length =
          (exportLoop copyOk statOk fsize destDir fs existing acc).1.failed) ∧
      (∃ news, (exportLoop copyOk statOk fsize destDir fs existing acc).2 = existing ++ news ∧
        ∀ (i : Nat) (x : String), news[i]? = some x → x ∉ existing ++ news.take i) := by
  intro fs
  induction fs with
  | nil =>
    intro existing acc
    refine ⟨by simp [exportLoop], fun h => h, [], by simp [exportLoop], ?_⟩
    intro i x hx
    simp at hx
  | cons f fs ih =>
    intro existing acc
    have hfresh := (chooseDest_spec existing destDir (basename f)).1
    unfold exportLoop
    by_cases hcp : copyOk f = true
    · by_cases hst : statOk f = true
      · rw [if_pos hcp, if_pos hst]
        obtain ⟨ha, hb, news, hnews, hstep⟩ :=
          ih (existing ++ [chooseDest existing destDir (basename f)])
            { acc with success := acc.success + 1, totalSize := acc.totalSize + fsize f }
        refine ⟨by rw [ha]; simp; omega, fun he => hb (by simpa using he), ?_⟩
        refine ⟨chooseDest existing destDir (basename f) :: news, by rw [hnews]; simp, ?_⟩
        intro i x hx
        cases i with
        | zero =>
          simp only [List.getElem?_cons_zero, Option.some_inj] at hx
          subst hx
          simpa using hfresh
        | succ i =>
          simp only [List.getElem?_cons_succ] at hx
          have := hstep i x hx
          simpa [List.append_assoc] using this
      · rw [if_pos hcp, if_neg hst]
        obtain ⟨ha, hb, news, hnews, hstep⟩ :=
          ih (existing ++ [chooseDest existing destDir (basename f)])
            { acc with failed := acc.failed + 1, errors := acc.errors ++ [basename f] }
        refine ⟨by rw [ha]; simp; omega, fun he => hb (by simp [he]), ?_⟩
        refine ⟨chooseDest existing destDir (basename f) :: news, by rw [hnews]; simp, ?_⟩
        intro i x hx
        cases i with
        | zero =>
          simp only [List.getElem?_cons_zero, Option.some_inj] at hx
          subst hx
          simpa using hfresh
        | succ i =>
          simp only [List.getElem?_cons_succ] at hx
          have := hstep i x hx
          simpa [List.append_assoc] using this
    · rw [if_neg hcp]
      obtain ⟨ha, hb, news, hnews, hstep⟩ :=
        ih existing { acc with failed := acc.failed + 1, errors := acc.errors ++ [basename f] }
      exact ⟨by rw [ha]; simp; omega, fun he => hb (by simp [he]), news, hnews, hstep⟩

/-- C10: for every input file list, destination directory and destination
contents, `exportFiles` returns a result whose success count plus failed
count equals the number of input files, with exactly one entry in the
error list per failed file; it never overwrites a pre-existing destination
file — every path it writes is absent from the destination at the moment
of the write — and on a basename collision the per-file destination
chooser picks exactly the first fresh candidate `name_k.ext`
(`k = 1, 2, …`), every earlier candidate being occupied. -/
theorem exportFiles_spec :
    ∀ (copyOk statOk : String → Bool) (fsize : String → Nat)
      (files : List String) (destDir : String) (existing : List String),
      ((exportFiles copyOk statOk fsize files destDir existing).1.success +
          (exportFiles copyOk statOk fsize files destDir existing).1.failed = files.length) ∧
        ((exportFiles copyOk statOk fsize files destDir existing).1.errors.length =
          (exportFiles copyOk statOk fsize files destDir existing).1.failed) ∧
        (∃ news, (exportFiles copyOk statOk fsize files destDir existing).2 = existing ++ news ∧
          ∀ (i : Nat) (x : String), news[i]? = some x → x ∉ existing ++ news.take i) ∧
        (∀ (ex : List String) (dir fn : String),
          chooseDest ex dir fn ∉ ex ∧
            (pjoin dir fn ∉ ex → chooseDest ex dir fn = pjoin dir fn) ∧
            (pjoin dir fn ∈ ex →
              ∃ k, 1 ≤ k ∧
                chooseDest ex dir fn = mkCandidate dir (stemOf fn) (extname fn) k ∧
                mkCandidate dir (stemOf fn) (extname fn) k ∉ ex ∧
                ∀ j, 1 ≤ j → j < k → mkCandidate dir (stemOf fn) (extname fn) j ∈ ex)) := by
  intro copyOk statOk fsize files destDir existing
  obtain ⟨ha, hb, hc⟩ := exportLoop_spec copyOk statOk fsize destDir files existing ⟨0, 0, 0, []⟩
  exact ⟨by simpa using ha, hb rfl, hc, fun ex dir fn => chooseDest_spec ex dir fn⟩

/-- C10 witness: the export theorem applied to a concrete batch — two
copies of basename `a.mp4` into a directory that already holds `a.mp4` and
`a_1.mp4`, plus one failing copy; the collision clause is then instanced
to show the chooser lands on `a_2.mp4`. -/
theorem exportFiles_spec_witness :
    (exportFiles (fun f => f != "/src/bad.mkv") (fun _ => true) (fun _ => 7)
        ["/src/a.mp4", "/src/bad.mkv"] "/d" ["/d/a.mp4", "/d/a_1.mp4"]).1.success +
      (exportFiles (fun f => f != "/src/bad.mkv") (fun _ => true) (fun _ => 7)
        ["/src/a.mp4", "/src/bad.mkv"] "/d" ["/d/a.mp4", "/d/a_1.mp4"]).1.failed = 2 ∧
    ∃ k, 1 ≤ k ∧
      chooseDest ["/d/a.mp4", "/d/a_1.mp4"] "/d" "a.mp4" =
        mkCandidate "/d" (stemOf "a.mp4") (extname "a.mp4") k ∧
      mkCandidate "/d" (stemOf "a.mp4") (extname "a.mp4") k ∉ ["/d/a.mp4", "/d/a_1.mp4"] ∧
      ∀ j, 1 ≤ j → j < k →
        mkCandidate "/d" (stemOf "a.mp4") (extname "a.mp4") j ∈ ["/d/a.mp4", "/d/a_1.mp4"] :=
  ⟨(exportFiles_spec (fun f => f != "/src/bad.mkv") (fun _ => true) (fun _ => 7)
      ["/src/a.mp4", "/src/bad.mkv"] "/d" ["/d/a.mp4", "/d/a_1.mp4"]).1,
    ((exportFiles_spec (fun f => f != "/src/bad.mkv") (fun _ => true) (fun _ => 7)
      ["/src/a.mp4", "/src/bad.mkv"] "/d" ["/d/a.mp4", "/d/a_1.mp4"]).2.2.2
      ["/d/a.mp4", "/d/a_1.mp4"] "/d" "a.mp4").2.2 (by decide)⟩

end StockRoom
